import Mathlib

/-!
Verification of the pellegrino message-transport core against its design
document.  The Rust sources embedded here are
`firmware/kernel/src/drivers/usb_serial.rs` (frame accumulator, port
multiplexer, ingestion loop) and `firmware/common/src/syscall/mod.rs`
(user-side syscall channel).  Machine integers are modelled as `Nat`
(byte values), slices as `List Nat`, fallible paths as `Except`, and a
Rust panic (out-of-bounds slice index, `defmt::unwrap!`, `defmt::panic!`)
as `none` in an outer `Option`.
-/

deriving instance DecidableEq for Except

namespace Pellegrino

/-- Bytes are natural numbers; the driver only ever compares them with the
sentinel value 0, so no modular arithmetic is needed. -/
abbrev Byte := Nat

/-! ## Frame accumulator (usb_serial.rs, `Accumulator<N>::feed`) -/

/-- Position of the first sentinel (zero byte) in a window; embeds
`buf.iter().position(|b| *b == 0)`. -/
def findZero : List Byte → Option Nat
  | [] => none
  | b :: bs => if b = 0 then some 0 else (findZero bs).map (· + 1)

theorem findZero_lt : ∀ {s : List Byte} {n : Nat}, findZero s = some n → n < s.length := by
  intro s
  induction s with
  | nil => intro n h; simp [findZero] at h
  | cons b bs ih =>
    intro n h
    simp only [findZero] at h
    by_cases hb : b = 0
    · simp only [hb, if_true, Option.some.injEq] at h
      subst h
      simp
    · simp only [hb, if_false, Option.map_eq_some'] at h
      obtain ⟨m, hm, rfl⟩ := h
      have := ih hm
      simp only [List.length_cons]
      omega

/-- Rust `dst[idx..][..src.len()].copy_from_slice(src)` as a pure list
operation: overwrite `src.length` bytes of `dst` starting at `idx`.
In-bounds use requires `idx + src.length ≤ dst.length`; the panic that the
Rust slice indexing performs out of bounds is modelled at the call sites. -/
def writeSlice (dst : List Byte) (idx : Nat) (src : List Byte) : List Byte :=
  dst.take idx ++ src ++ dst.drop (idx + src.length)

/-- Scratch state of `Accumulator<N>`: an `N`-byte buffer and write cursor.
The invariant `buf.length = N ∧ idx ≤ N` is established by `Accumulator.new`
and preserved by `feed`. -/
structure Accumulator (N : Nat) where
  buf : List Byte
  idx : Nat
deriving Repr, DecidableEq

/-- Embeds `Accumulator::new`: zeroed scratch, cursor 0. -/
def Accumulator.new (N : Nat) : Accumulator N := ⟨List.replicate N 0, 0⟩

/-- Embeds `enum AccError`: `NoRoomNoRem` and `NoRoomWithRem(&[u8])`. -/
inductive AccError where
  | NoRoomNoRem : AccError
  | NoRoomWithRem : List Byte → AccError
deriving Repr, DecidableEq

/-- Embeds `AccSuccess`: the unconsumed remainder of the window and the
completed frame snapshot `msg.buf[..msg.len]` (prior scratch contents plus
the prefix up to and including the sentinel). -/
structure AccSuccess where
  remainder : List Byte
  msg : List Byte
deriving Repr, DecidableEq

/-- Embeds `Accumulator::<N>::feed`.  The four source arms are mirrored in
order; the guard `n < buf.len()` of the second arm and the final
`Some(_)` arm are kept even though `findZero` only returns in-range
positions.  The result is `none` exactly where the Rust code panics: in the
first arm the source copies `n + 1` bytes at offset `idx` into the `N`-byte
scratch (`self.buf[self.idx..][..now.len()]`), which is out of bounds
unless `idx + (n + 1) ≤ N`, while the arm's guard only checks
`idx + n ≤ N`. -/
def Accumulator.feed {N : Nat} (a : Accumulator N) (buf : List Byte) :
    Option (Accumulator N × Except AccError (Option AccSuccess)) :=
  match findZero buf with
  | some n =>
    if a.idx + n ≤ N then
      if a.idx + (n + 1) ≤ N then
        let now := buf.take (n + 1)
        let newBuf := writeSlice a.buf a.idx now
        some (⟨newBuf, 0⟩,
          .ok (some ⟨buf.drop (n + 1), newBuf.take (a.idx + (n + 1))⟩))
      else
        none
    else if n + 1 ≤ buf.length then
      some (⟨a.buf, 0⟩, .error (.NoRoomWithRem (buf.drop (n + 1))))
    else
      some (⟨a.buf, 0⟩, .error .NoRoomNoRem)
  | none =>
    if a.idx + buf.length ≤ N then
      some (⟨writeSlice a.buf a.idx buf, a.idx + buf.length⟩, .ok none)
    else
      some (⟨a.buf, 0⟩, .error .NoRoomNoRem)

theorem feed_rem_lt_of_ok {N : Nat} {a a' : Accumulator N} {w : List Byte} {s : AccSuccess}
    (hf : a.feed w = some (a', .ok (some s))) : s.remainder.length < w.length := by
  unfold Accumulator.feed at hf
  split at hf
  next n hfz =>
    have hn := findZero_lt hfz
    split at hf
    · split at hf
      · simp only [Option.some.injEq, Prod.mk.injEq, Except.ok.injEq, Option.some.injEq] at hf
        obtain ⟨-, hf⟩ := hf
        subst hf
        simp only [List.length_drop]
        omega
      · simp_all
    · split at hf <;> simp_all
  next hfz =>
    split at hf <;> simp_all

theorem feed_rem_lt_of_withRem {N : Nat} {a a' : Accumulator N} {w rem : List Byte}
    (hf : a.feed w = some (a', .error (.NoRoomWithRem rem))) : rem.length < w.length := by
  unfold Accumulator.feed at hf
  split at hf
  next n hfz =>
    have hn := findZero_lt hfz
    split at hf
    · split at hf <;> simp_all
    · split at hf
      · simp only [Option.some.injEq, Prod.mk.injEq, Except.error.injEq,
          AccError.NoRoomWithRem.injEq] at hf
        obtain ⟨-, hf⟩ := hf
        subst hf
        simp only [List.length_drop]
        omega
      · simp_all
  next hfz =>
    split at hf <;> simp_all

/-- Window harness on top of `feed`, as described by the chunk-invariance
property: feed the window, re-feed each returned remainder (the remainder
of a completed frame, or the post-sentinel remainder of an overflow), and
stop on `Ok(None)` or `NoRoomNoRem`, which consume the rest of the window.
Collects the ordered sequence of decoded frames; `none` propagates the
panic in `feed`. -/
def feedAll {N : Nat} (a : Accumulator N) (w : List Byte) :
    Option (Accumulator N × List (List Byte)) :=
  if w.length = 0 then some (a, [])
  else
    match hf : a.feed w with
    | none => none
    | some (a', .ok none) => some (a', [])
    | some (a', .ok (some s)) =>
      match feedAll a' s.remainder with
      | none => none
      | some (a'', fs) => some (a'', s.msg :: fs)
    | some (a', .error .NoRoomNoRem) => some (a', [])
    | some (a', .error (.NoRoomWithRem rem)) => feedAll a' rem
termination_by w.length
decreasing_by
  · exact feed_rem_lt_of_ok hf
  · exact feed_rem_lt_of_withRem hf

/-- Feed a sequence of sub-windows one after another, accumulating the
decoded frames of each window in order. -/
def feedChunks {N : Nat} (a : Accumulator N) : List (List Byte) → Option (Accumulator N × List (List Byte))
  | [] => some (a, [])
  | w :: ws =>
    match feedAll a w with
    | none => none
    | some (a', fs) =>
      match feedChunks a' ws with
      | none => none
      | some (a'', fs') => some (a'', fs ++ fs')

/-- Wire image of a frame sequence: each frame's (sentinel-free) encoded
content followed by the sentinel byte, all concatenated. -/
def encodeFrames (fs : List (List Byte)) : List Byte := (fs.map (· ++ [0])).flatten

/-! ### Reference stream functions for the chunk-invariance proof

`canonFrames scr s` is the sequence of frames a clean (never-overflowing,
never-panicking) accumulator run decodes from the stream `s` when the
scratch currently holds the partial content `scr`; `leftover scr s` is the
partial content left in the scratch afterwards, and `leftoverLen` its
length as a function of the cursor.  `Fits N idx s` states that such a run
stays clean: every sentinel arrives while frame content plus sentinel
still fit the capacity, and any unterminated tail also fits. -/

def canonFrames (scr : List Byte) (s : List Byte) : List (List Byte) :=
  match hfz : findZero s with
  | none => []
  | some n =>
    have : (s.drop (n + 1)).length < s.length := by
      have := findZero_lt hfz
      simp only [List.length_drop]
      omega
    (scr ++ s.take (n + 1)) :: canonFrames [] (s.drop (n + 1))
termination_by s.length

def leftover (scr : List Byte) (s : List Byte) : List Byte :=
  match hfz : findZero s with
  | none => scr ++ s
  | some n =>
    have : (s.drop (n + 1)).length < s.length := by
      have := findZero_lt hfz
      simp only [List.length_drop]
      omega
    leftover [] (s.drop (n + 1))
termination_by s.length

def leftoverLen (idx : Nat) (s : List Byte) : Nat :=
  match hfz : findZero s with
  | none => idx + s.length
  | some n =>
    have : (s.drop (n + 1)).length < s.length := by
      have := findZero_lt hfz
      simp only [List.length_drop]
      omega
    leftoverLen 0 (s.drop (n + 1))
termination_by s.length

def Fits (N : Nat) (idx : Nat) (s : List Byte) : Prop :=
  match hfz : findZero s with
  | none => idx + s.length ≤ N
  | some n =>
    have : (s.drop (n + 1)).length < s.length := by
      have := findZero_lt hfz
      simp only [List.length_drop]
      omega
    idx + (n + 1) ≤ N ∧ Fits N 0 (s.drop (n + 1))
termination_by s.length

theorem canonFrames_of_none {scr s : List Byte} (h : findZero s = none) :
    canonFrames scr s = [] := by
  unfold canonFrames
  split <;> simp_all

theorem canonFrames_of_some {scr s : List Byte} {n : Nat} (h : findZero s = some n) :
    canonFrames scr s = (scr ++ s.take (n + 1)) :: canonFrames [] (s.drop (n + 1)) := by
  conv_lhs => rw [canonFrames]
  split
  next h' => rw [h'] at h; cases h
  next m h' =>
    rw [h'] at h
    cases h
    rfl

theorem leftover_of_none {scr s : List Byte} (h : findZero s = none) :
    leftover scr s = scr ++ s := by
  unfold leftover
  split <;> simp_all

theorem leftover_of_some {scr s : List Byte} {n : Nat} (h : findZero s = some n) :
    leftover scr s = leftover [] (s.drop (n + 1)) := by
  conv_lhs => rw [leftover]
  split
  next h' => rw [h'] at h; cases h
  next m h' =>
    rw [h'] at h
    cases h
    rfl

theorem leftoverLen_of_none {idx : Nat} {s : List Byte} (h : findZero s = none) :
    leftoverLen idx s = idx + s.length := by
  unfold leftoverLen
  split <;> simp_all

theorem leftoverLen_of_some {idx : Nat} {s : List Byte} {n : Nat} (h : findZero s = some n) :
    leftoverLen idx s = leftoverLen 0 (s.drop (n + 1)) := by
  conv_lhs => rw [leftoverLen]
  split
  next h' => rw [h'] at h; cases h
  next m h' =>
    rw [h'] at h
    cases h
    rfl

theorem fits_of_none {N idx : Nat} {s : List Byte} (h : findZero s = none) :
    Fits N idx s ↔ idx + s.length ≤ N := by
  unfold Fits
  split <;> simp_all

theorem fits_of_some {N idx : Nat} {s : List Byte} {n : Nat} (h : findZero s = some n) :
    Fits N idx s ↔ idx + (n + 1) ≤ N ∧ Fits N 0 (s.drop (n + 1)) := by
  conv_lhs => rw [Fits]
  split
  next h' => rw [h'] at h; cases h
  next m h' =>
    rw [h'] at h
    cases h
    rfl

theorem findZero_append_of_some {w1 w2 : List Byte} {n : Nat} (h : findZero w1 = some n) :
    findZero (w1 ++ w2) = some n := by
  induction w1 generalizing n with
  | nil => simp [findZero] at h
  | cons b bs ih =>
    simp only [findZero, List.cons_append] at h ⊢
    by_cases hb : b = 0
    · simp_all
    · simp only [hb, if_false, Option.map_eq_some'] at h ⊢
      obtain ⟨m, hm, rfl⟩ := h
      exact ⟨m, ih hm, rfl⟩

theorem findZero_append_of_none {w1 w2 : List Byte} (h : findZero w1 = none) :
    findZero (w1 ++ w2) = (findZero w2).map (· + w1.length) := by
  induction w1 with
  | nil =>
    simp only [List.nil_append, List.length_nil]
    cases h2 : findZero w2 <;> simp
  | cons b bs ih =>
    have hb : ¬ b = 0 := by
      intro hb
      rw [findZero] at h
      simp [hb] at h
    have h' : findZero bs = none := by
      rw [findZero] at h
      simp only [hb, if_false, Option.map_eq_none'] at h
      exact h
    rw [List.cons_append, findZero]
    simp only [hb, if_false, ih h', List.length_cons]
    cases h2 : findZero w2 with
    | none => simp
    | some m => simp [Nat.add_assoc]

theorem canon_append (scr w1 w2 : List Byte) :
    canonFrames scr (w1 ++ w2) = canonFrames scr w1 ++ canonFrames (leftover scr w1) w2 := by
  cases hfz : findZero w1 with
  | some n =>
    have hn := findZero_lt hfz
    rw [canonFrames_of_some (findZero_append_of_some hfz),
      List.take_append_of_le_length (by omega), List.drop_append_of_le_length (by omega),
      canonFrames_of_some hfz, leftover_of_some hfz, List.cons_append,
      canon_append [] (w1.drop (n + 1)) w2]
  | none =>
    rw [canonFrames_of_none hfz, leftover_of_none hfz, List.nil_append]
    cases hfz2 : findZero w2 with
    | none =>
      have hc : findZero (w1 ++ w2) = none := by
        rw [findZero_append_of_none hfz, hfz2]; rfl
      rw [canonFrames_of_none hc, canonFrames_of_none hfz2]
    | some m =>
      have hc : findZero (w1 ++ w2) = some (m + w1.length) := by
        rw [findZero_append_of_none hfz, hfz2]; rfl
      have he : m + w1.length + 1 = w1.length + (m + 1) := by omega
      rw [canonFrames_of_some hc, canonFrames_of_some hfz2, he, List.take_append,
        List.drop_append, List.append_assoc]
termination_by w1.length
decreasing_by
  have := findZero_lt hfz
  simp only [List.length_drop]
  omega

theorem leftover_append (scr w1 w2 : List Byte) :
    leftover scr (w1 ++ w2) = leftover (leftover scr w1) w2 := by
  cases hfz : findZero w1 with
  | some n =>
    have hn := findZero_lt hfz
    rw [leftover_of_some (findZero_append_of_some hfz),
      List.drop_append_of_le_length (by omega), leftover_of_some hfz,
      leftover_append [] (w1.drop (n + 1)) w2]
  | none =>
    rw [leftover_of_none hfz]
    cases hfz2 : findZero w2 with
    | none =>
      have hc : findZero (w1 ++ w2) = none := by
        rw [findZero_append_of_none hfz, hfz2]; rfl
      rw [leftover_of_none hc, leftover_of_none hfz2, List.append_assoc]
    | some m =>
      have hc : findZero (w1 ++ w2) = some (m + w1.length) := by
        rw [findZero_append_of_none hfz, hfz2]; rfl
      have he : m + w1.length + 1 = w1.length + (m + 1) := by omega
      rw [leftover_of_some hc, leftover_of_some hfz2, he, List.drop_append]
termination_by w1.length
decreasing_by
  have := findZero_lt hfz
  simp only [List.length_drop]
  omega

theorem leftoverLen_append (idx : Nat) (w1 w2 : List Byte) :
    leftoverLen idx (w1 ++ w2) = leftoverLen (leftoverLen idx w1) w2 := by
  cases hfz : findZero w1 with
  | some n =>
    have hn := findZero_lt hfz
    rw [leftoverLen_of_some (findZero_append_of_some hfz),
      List.drop_append_of_le_length (by omega), leftoverLen_of_some hfz,
      leftoverLen_append 0 (w1.drop (n + 1)) w2]
  | none =>
    rw [leftoverLen_of_none hfz]
    cases hfz2 : findZero w2 with
    | none =>
      have hc : findZero (w1 ++ w2) = none := by
        rw [findZero_append_of_none hfz, hfz2]; rfl
      rw [leftoverLen_of_none hc, leftoverLen_of_none hfz2, List.length_append]
      omega
    | some m =>
      have hc : findZero (w1 ++ w2) = some (m + w1.length) := by
        rw [findZero_append_of_none hfz, hfz2]; rfl
      have he : m + w1.length + 1 = w1.length + (m + 1) := by omega
      rw [leftoverLen_of_some hc, leftoverLen_of_some hfz2, he, List.drop_append]
termination_by w1.length
decreasing_by
  have := findZero_lt hfz
  simp only [List.length_drop]
  omega

theorem fits_append (N idx : Nat) (w1 w2 : List Byte) (h : Fits N idx (w1 ++ w2)) :
    Fits N idx w1 ∧ Fits N (leftoverLen idx w1) w2 := by
  cases hfz : findZero w1 with
  | some n =>
    have hn := findZero_lt hfz
    rw [fits_of_some (findZero_append_of_some hfz),
      List.drop_append_of_le_length (by omega)] at h
    obtain ⟨h1, h2⟩ := h
    obtain ⟨ihl, ihr⟩ := fits_append N 0 (w1.drop (n + 1)) w2 h2
    refine ⟨?_, ?_⟩
    · rw [fits_of_some hfz]
      exact ⟨h1, ihl⟩
    · rw [leftoverLen_of_some hfz]
      exact ihr
  | none =>
    rw [leftoverLen_of_none hfz]
    cases hfz2 : findZero w2 with
    | none =>
      have hc : findZero (w1 ++ w2) = none := by
        rw [findZero_append_of_none hfz, hfz2]; rfl
      rw [fits_of_none hc, List.length_append] at h
      refine ⟨?_, ?_⟩
      · rw [fits_of_none hfz]; omega
      · rw [fits_of_none hfz2]; omega
    | some m =>
      have hc : findZero (w1 ++ w2) = some (m + w1.length) := by
        rw [findZero_append_of_none hfz, hfz2]; rfl
      rw [fits_of_some hc] at h
      obtain ⟨h1, h2⟩ := h
      have he : m + w1.length + 1 = w1.length + (m + 1) := by omega
      rw [he, List.drop_append] at h2
      refine ⟨?_, ?_⟩
      · rw [fits_of_none hfz]; omega
      · rw [fits_of_some hfz2]
        exact ⟨by omega, h2⟩
termination_by w1.length
decreasing_by
  have := findZero_lt hfz
  simp only [List.length_drop]
  omega

theorem writeSlice_length (dst src : List Byte) (idx : Nat) (h : idx + src.length ≤ dst.length) :
    (writeSlice dst idx src).length = dst.length := by
  simp only [writeSlice, List.length_append, List.length_take, List.length_drop]
  omega

theorem writeSlice_take (dst src : List Byte) (idx : Nat) (h : idx ≤ dst.length) :
    (writeSlice dst idx src).take (idx + src.length) = dst.take idx ++ src := by
  have hlen : (dst.take idx).length = idx := by
    simp only [List.length_take]
    omega
  rw [writeSlice, List.append_assoc,
    show idx + src.length = (dst.take idx).length + src.length by rw [hlen],
    List.take_append, List.take_left]

theorem feed_sentinel_fits {N : Nat} (a : Accumulator N) (w : List Byte) (n : Nat)
    (hfz : findZero w = some n) (h : a.idx + (n + 1) ≤ N) :
    a.feed w = some (⟨writeSlice a.buf a.idx (w.take (n + 1)), 0⟩,
      .ok (some ⟨w.drop (n + 1),
        (writeSlice a.buf a.idx (w.take (n + 1))).take (a.idx + (n + 1))⟩)) := by
  simp only [Accumulator.feed, hfz]
  rw [if_pos (by omega : a.idx + n ≤ N), if_pos h]

theorem feed_noSentinel_fits {N : Nat} (a : Accumulator N) (w : List Byte)
    (hfz : findZero w = none) (h : a.idx + w.length ≤ N) :
    a.feed w = some (⟨writeSlice a.buf a.idx w, a.idx + w.length⟩, .ok none) := by
  simp only [Accumulator.feed, hfz]
  rw [if_pos h]

theorem feedAll_feed_ok_some {N : Nat} (a a1 : Accumulator N) (w rem msg : List Byte)
    (hw : ¬ w.length = 0)
    (hfeed : a.feed w = some (a1, .ok (some ⟨rem, msg⟩))) :
    feedAll a w = match feedAll a1 rem with
      | none => none
      | some (a2, fs) => some (a2, msg :: fs) := by
  rw [feedAll, if_neg hw]
  split
  next h => rw [hfeed] at h; simp at h
  next h => rw [hfeed] at h; simp at h
  next a' s h =>
    rw [hfeed] at h
    simp only [Option.some.injEq, Prod.mk.injEq, Except.ok.injEq] at h
    obtain ⟨rfl, rfl⟩ := h
    rfl
  next h => rw [hfeed] at h; simp at h
  next h => rw [hfeed] at h; simp at h

theorem feedAll_feed_ok_none {N : Nat} (a a1 : Accumulator N) (w : List Byte)
    (hw : ¬ w.length = 0)
    (hfeed : a.feed w = some (a1, .ok none)) :
    feedAll a w = some (a1, []) := by
  rw [feedAll, if_neg hw]
  split
  next h => rw [hfeed] at h; simp at h
  next a' h =>
    rw [hfeed] at h
    simp only [Option.some.injEq, Prod.mk.injEq, Except.ok.injEq] at h
    obtain ⟨rfl, -⟩ := h
    rfl
  next h => rw [hfeed] at h; simp at h
  next h => rw [hfeed] at h; simp at h
  next h => rw [hfeed] at h; simp at h

/-- Clean-run characterisation of the window harness: on a well-formed
state whose pending stream fits the capacity, `feedAll` never panics and
never overflows, decodes exactly the canonical frame sequence, and leaves
the canonical partial content in the scratch. -/
theorem feedAll_clean {N : Nat} (a : Accumulator N) (w : List Byte)
    (hlen : a.buf.length = N) (hidx : a.idx ≤ N) (hfit : Fits N a.idx w) :
    ∃ a' : Accumulator N,
      feedAll a w = some (a', canonFrames (a.buf.take a.idx) w)
      ∧ a'.buf.length = N ∧ a'.idx ≤ N
      ∧ a'.buf.take a'.idx = leftover (a.buf.take a.idx) w
      ∧ a'.idx = leftoverLen a.idx w := by
  by_cases hw : w.length = 0
  · have hwnil : w = [] := List.length_eq_zero.mp hw
    subst hwnil
    refine ⟨a, ?_, hlen, hidx, ?_, ?_⟩
    · rw [canonFrames_of_none (show findZero [] = none from rfl)]
      simp [feedAll]
    · rw [leftover_of_none (show findZero [] = none from rfl)]
      simp
    · rw [leftoverLen_of_none (show findZero [] = none from rfl)]
      simp
  · cases hfz : findZero w with
    | some n =>
      have hn := findZero_lt hfz
      obtain ⟨h1, h2⟩ := (fits_of_some hfz).mp hfit
      have hfeed := feed_sentinel_fits a w n hfz h1
      have hsrclen : (w.take (n + 1)).length = n + 1 := by
        simp only [List.length_take]
        omega
      have hlen1 : (writeSlice a.buf a.idx (w.take (n + 1))).length = N := by
        rw [writeSlice_length]
        · exact hlen
        · rw [hsrclen]; omega
      obtain ⟨a', hfa, hl', hi', hto', hll'⟩ :=
        feedAll_clean ⟨writeSlice a.buf a.idx (w.take (n + 1)), 0⟩ (w.drop (n + 1))
          hlen1 (Nat.zero_le N) h2
      simp only [List.take_zero] at hfa hto'
      refine ⟨a', ?_, hl', hi', ?_, ?_⟩
      · rw [feedAll_feed_ok_some a ⟨writeSlice a.buf a.idx (w.take (n + 1)), 0⟩ w
          (w.drop (n + 1)) ((writeSlice a.buf a.idx (w.take (n + 1))).take (a.idx + (n + 1)))
          hw hfeed]
        rw [hfa, canonFrames_of_some hfz]
        have hmsg : (writeSlice a.buf a.idx (w.take (n + 1))).take (a.idx + (n + 1))
            = a.buf.take a.idx ++ w.take (n + 1) := by
          rw [show a.idx + (n + 1) = a.idx + (w.take (n + 1)).length by rw [hsrclen],
            writeSlice_take]
          omega
        rw [hmsg]
      · rw [leftover_of_some hfz]
        exact hto'
      · rw [leftoverLen_of_some hfz]
        exact hll'
    | none =>
      have hfitn := (fits_of_none hfz).mp hfit
      have hfeed := feed_noSentinel_fits a w hfz hfitn
      refine ⟨⟨writeSlice a.buf a.idx w, a.idx + w.length⟩, ?_, ?_, ?_, ?_, ?_⟩
      · rw [feedAll_feed_ok_none a ⟨writeSlice a.buf a.idx w, a.idx + w.length⟩ w hw hfeed,
          canonFrames_of_none hfz]
      · rw [writeSlice_length]
        · exact hlen
        · omega
      · exact hfitn
      · rw [leftover_of_none hfz]
        exact writeSlice_take a.buf w a.idx (by omega)
      · rw [leftoverLen_of_none hfz]
termination_by w.length
decreasing_by
  have := findZero_lt hfz
  simp only [List.length_drop]
  omega

/-- Clean-run characterisation of the chunked harness, by composing
`feedAll_clean` over the windows with the stream-append laws. -/
theorem feedChunks_clean {N : Nat} (a : Accumulator N) (ws : List (List Byte))
    (hlen : a.buf.length = N) (hidx : a.idx ≤ N) (hfit : Fits N a.idx ws.flatten) :
    ∃ a' : Accumulator N,
      feedChunks a ws = some (a', canonFrames (a.buf.take a.idx) ws.flatten)
      ∧ a'.buf.length = N ∧ a'.idx ≤ N
      ∧ a'.buf.take a'.idx = leftover (a.buf.take a.idx) ws.flatten
      ∧ a'.idx = leftoverLen a.idx ws.flatten := by
  induction ws generalizing a with
  | nil =>
    refine ⟨a, by simp [feedChunks, canonFrames_of_none (show findZero [] = none from rfl)],
      hlen, hidx, ?_, ?_⟩
    · rw [show ([] : List (List Byte)).flatten = [] from rfl,
        leftover_of_none (show findZero [] = none from rfl)]
      simp
    · rw [show ([] : List (List Byte)).flatten = [] from rfl,
        leftoverLen_of_none (show findZero [] = none from rfl)]
      simp
  | cons w ws ih =>
    rw [show (w :: ws).flatten = w ++ ws.flatten from rfl] at hfit ⊢
    obtain ⟨hf1, hf2⟩ := fits_append N a.idx w ws.flatten hfit
    obtain ⟨a1, hfa1, hl1, hi1, hto1, hll1⟩ := feedAll_clean a w hlen hidx hf1
    obtain ⟨a2, hfa2, hl2, hi2, hto2, hll2⟩ := ih a1 hl1 hi1 (by rw [hll1]; exact hf2)
    refine ⟨a2, ?_, hl2, hi2, ?_, ?_⟩
    · simp only [feedChunks, hfa1, hfa2]
      rw [canon_append, hto1]
    · rw [leftover_append, ← hto1]
      exact hto2
    · rw [leftoverLen_append, ← hll1]
      exact hll2

theorem encodeFrames_cons (f : List Byte) (fs : List (List Byte)) :
    encodeFrames (f :: fs) = f ++ 0 :: encodeFrames fs := by
  simp [encodeFrames, List.append_assoc]

theorem findZero_before_sentinel (f r : List Byte) (h : ∀ b ∈ f, b ≠ 0) :
    findZero (f ++ 0 :: r) = some f.length := by
  induction f with
  | nil => simp [findZero]
  | cons b bs ih =>
    have hb : ¬ b = 0 := h b (List.mem_cons_self b bs)
    rw [List.cons_append, findZero]
    simp only [hb, if_false, ih (fun x hx => h x (List.mem_cons_of_mem b hx)),
      Option.map_some', List.length_cons]

theorem fits_encodeFrames (N : Nat) (fs : List (List Byte))
    (h : ∀ f ∈ fs, f.length + 1 ≤ N ∧ ∀ b ∈ f, b ≠ 0) :
    Fits N 0 (encodeFrames fs) := by
  induction fs with
  | nil =>
    rw [show encodeFrames [] = [] from rfl, fits_of_none (show findZero [] = none from rfl)]
    simp
  | cons f fs ih =>
    obtain ⟨hlen, hnz⟩ := h f (List.mem_cons_self f fs)
    rw [encodeFrames_cons, fits_of_some (findZero_before_sentinel f (encodeFrames fs) hnz)]
    refine ⟨by omega, ?_⟩
    rw [show f.length + 1 = f.length + 1 from rfl, List.drop_append,
      show List.drop 1 (0 :: encodeFrames fs) = encodeFrames fs from rfl]
    exact ih (fun g hg => h g (List.mem_cons_of_mem f hg))

theorem canonFrames_encodeFrames (fs : List (List Byte))
    (h : ∀ f ∈ fs, ∀ b ∈ f, b ≠ 0) :
    canonFrames [] (encodeFrames fs) = fs.map (· ++ [0]) := by
  induction fs with
  | nil =>
    rw [show encodeFrames [] = [] from rfl,
      canonFrames_of_none (show findZero [] = none from rfl)]
    rfl
  | cons f fs ih =>
    rw [encodeFrames_cons,
      canonFrames_of_some (findZero_before_sentinel f (encodeFrames fs)
        (h f (List.mem_cons_self f fs))),
      List.drop_append, show List.drop 1 (0 :: encodeFrames fs) = encodeFrames fs from rfl,
      ih (fun g hg => h g (List.mem_cons_of_mem f hg)), List.nil_append,
      List.take_append, show List.take 1 (0 :: encodeFrames fs) = [0] from rfl]
    rfl

/-- C1 counterexample.  Frames need not fit the scratch capacity in the
claim as stated.  With N = 4, frame contents `AAAAA` and `B` encode to the
byte stream `AAAAA\x00B\x00`.  Feeding the whole stream in one call (with
remainders re-fed) resynchronises after the oversize frame and decodes
exactly one frame, `B`.  Feeding the split `[AAAAA][\x00B\x00]` instead
hits `NoRoomNoRem` on the first window (dropping it), after which the
stray sentinel opening the second window produces a spurious empty frame —
two frames in total.  The two runs therefore disagree. -/
theorem feed_chunk_invariance_fails :
    ([[65, 65, 65, 65, 65], [0, 66, 0]] : List (List Byte)).flatten
        = encodeFrames [[65, 65, 65, 65, 65], [66]]
    ∧ (feedChunks (Accumulator.new 4) [[65, 65, 65, 65, 65], [0, 66, 0]]).map Prod.snd
        = some [[0], [66, 0]]
    ∧ (feedAll (Accumulator.new 4) [65, 65, 65, 65, 65, 0, 66, 0]).map Prod.snd
        = some [[66, 0]]
    ∧ (feedChunks (Accumulator.new 4) [[65, 65, 65, 65, 65], [0, 66, 0]]).map Prod.snd
        ≠ (feedAll (Accumulator.new 4) [65, 65, 65, 65, 65, 0, 66, 0]).map Prod.snd := by
  have h2 : (feedChunks (Accumulator.new 4) [[65, 65, 65, 65, 65], [0, 66, 0]]).map Prod.snd
      = some [[0], [66, 0]] := by
    simp [feedChunks, feedAll, Accumulator.feed, findZero, writeSlice, Accumulator.new]
  have h3 : (feedAll (Accumulator.new 4) [65, 65, 65, 65, 65, 0, 66, 0]).map Prod.snd
      = some [[66, 0]] := by
    simp [feedAll, Accumulator.feed, findZero, writeSlice, Accumulator.new]
  refine ⟨by decide, h2, h3, ?_⟩
  rw [h2, h3]
  decide

/-- C1 as amended.  Chunk-invariance of the frame accumulator holds for
frame sequences that fit the scratch capacity: if every encoded frame has
sentinel-free content of length at most N - 1 (so content plus sentinel
fit the capacity), then for every way of splitting the concatenated
encoded bytes into consecutive sub-windows, feeding the windows
sequentially (re-feeding each returned remainder) decodes exactly the same
ordered sequence of frames as feeding the whole buffer in a single call —
namely the frames themselves, each closed by the sentinel. -/
theorem feed_chunk_invariance_of_fits (N : Nat) (fs ws : List (List Byte))
    (hfs : ∀ f ∈ fs, f.length + 1 ≤ N ∧ ∀ b ∈ f, b ≠ 0)
    (hws : ws.flatten = encodeFrames fs) :
    ∃ a1 a2 : Accumulator N,
      feedChunks (Accumulator.new N) ws = some (a1, fs.map (· ++ [0]))
      ∧ feedAll (Accumulator.new N) (encodeFrames fs) = some (a2, fs.map (· ++ [0])) := by
  have hnewLen : (Accumulator.new N).buf.length = N := by simp [Accumulator.new]
  have hfit : Fits N 0 (encodeFrames fs) := fits_encodeFrames N fs hfs
  have hcanon : canonFrames [] (encodeFrames fs) = fs.map (· ++ [0]) :=
    canonFrames_encodeFrames fs (fun f hf => (hfs f hf).2)
  have htake : (Accumulator.new N).buf.take (Accumulator.new N).idx = [] := by
    simp [Accumulator.new]
  obtain ⟨a1, h1, -, -, -, -⟩ :=
    feedChunks_clean (Accumulator.new N) ws hnewLen (Nat.zero_le N) (by rw [hws]; exact hfit)
  obtain ⟨a2, h2, -, -, -, -⟩ :=
    feedAll_clean (Accumulator.new N) (encodeFrames fs) hnewLen (Nat.zero_le N) hfit
  refine ⟨a1, a2, ?_, ?_⟩
  · rw [h1, htake, hws, hcanon]
  · rw [h2, htake, hcanon]

/-- Witness for `feed_chunk_invariance_of_fits`: with N = 4, the frames
`A` and `BC` split across the windows `[A\x00B][C\x00]` decode to the same
two frames as the unsplit stream. -/
theorem feed_chunk_invariance_of_fits_witness :
    ∃ a1 a2 : Accumulator 4,
      feedChunks (Accumulator.new 4) [[65, 0, 66], [67, 0]]
        = some (a1, [[65, 0], [66, 67, 0]])
      ∧ feedAll (Accumulator.new 4) (encodeFrames [[65], [66, 67]])
        = some (a2, [[65, 0], [66, 67, 0]]) :=
  feed_chunk_invariance_of_fits 4 [[65], [66, 67]] [[65, 0, 66], [67, 0]]
    (by decide) (by decide)

/-! ## Port multiplexer (usb_serial.rs, `UsbUartSys`)

The registry embeds `LinearMap<u16, Deque<HeapArray<u8>, 16>, 8>` as an
association list in insertion order; a queue is the list of its chunks,
front first.  Heap-lock/allocation outcomes, which are external to this
module (`crate::alloc::HEAP`), enter as boolean oracles: `false` at a
`defmt::unwrap!` site is a panic (`none`). -/

def QUEUE_CAP : Nat := 16

def REG_CAP : Nat := 8

abbrev Registry := List (Nat × List (List Byte))

def lookupPort (ps : Registry) (k : Nat) : Option (List (List Byte)) :=
  (ps.find? (fun e => e.1 == k)).map (·.2)

def updatePort (ps : Registry) (k : Nat) (q : List (List Byte)) : Registry :=
  ps.map (fun e => if e.1 = k then (k, q) else e)

/-- Embeds `register_port`: fails if the id is present
(`ports.contains_key`), then `LinearMap::insert` fails if the fixed-size
map is full. -/
def register_port (ps : Registry) (k : Nat) : Except Unit Registry :=
  if (lookupPort ps k).isSome then .error ()
  else if ps.length < REG_CAP then .ok (ps ++ [(k, [])])
  else .error ()

/-- Embeds `release_port`: port 0 is never released; removing an unknown
id fails. -/
def release_port (ps : Registry) (k : Nat) : Except Unit Registry :=
  if k = 0 then .error ()
  else if (lookupPort ps k).isSome then .ok (ps.filter (fun e => ! (e.1 == k)))
  else .error ()

/-- Embeds the `while used < buf.len()` loop of `recv` on one port queue.
`buflen` is `buf.len()`, `used` the write cursor, and the returned list the
bytes written from this point on (`avail` in the source is
`buflen - used`).  An empty queue returns what was written so far; a chunk
that fits is copied whole and popped; an oversize chunk is split, the
fitting prefix copied (filling the buffer, so the loop exits), and the
suffix re-wrapped via a fresh heap allocation — `defmt::unwrap!` aborts,
`none`, when the heap lock or the allocation fails (`aOk = false`) — and
pushed back to the front (`Deque::push_front`, whose queue-full error is
ignored by the source). -/
def recvGo (aOk : Bool) (buflen : Nat) : List (List Byte) → Nat → Option (List Byte × List (List Byte))
  | [], _ => some ([], [])
  | msg :: rest, used =>
    if used < buflen then
      if msg.length ≤ buflen - used then
        match recvGo aOk buflen rest (used + msg.length) with
        | none => none
        | some (out, q') => some (msg ++ out, q')
      else if aOk then
        some (msg.take (buflen - used),
          if rest.length < QUEUE_CAP then msg.drop (buflen - used) :: rest else rest)
      else none
    else some ([], msg :: rest)

/-- One `recv` call on a port queue with a destination of size `buflen`. -/
def recvCall (aOk : Bool) (q : List (List Byte)) (buflen : Nat) :
    Option (List Byte × List (List Byte)) :=
  recvGo aOk buflen q 0

/-- Embeds `recv` below its initial `process()` call: the port lookup
(`ok_or(())?`, the only `Err` of the function) followed by the queue
loop. -/
def recv (aOk : Bool) (ps : Registry) (k : Nat) (buflen : Nat) :
    Option (Except Unit (List Byte × Registry)) :=
  match lookupPort ps k with
  | none => some (.error ())
  | some q =>
    match recvCall aOk q buflen with
    | none => none
    | some (out, q') => some (.ok (out, updatePort ps k q'))

/-- Repeated `recv` calls with successive destination sizes `ds`,
concatenating the returned byte strings. -/
def recvMany (aOk : Bool) : List (List Byte) → List Nat → Option (List Byte × List (List Byte))
  | q, [] => some ([], q)
  | q, d :: ds =>
    match recvCall aOk q d with
    | none => none
    | some (out, q') =>
      match recvMany aOk q' ds with
      | none => none
      | some (out', q'') => some (out ++ out', q'')

theorem recvGo_spec (buflen : Nat) : ∀ (q : List (List Byte)) (used : Nat),
    q.length ≤ QUEUE_CAP →
    ∃ out q', recvGo true buflen q used = some (out, q')
      ∧ out ++ q'.flatten = q.flatten
      ∧ out.length = min (buflen - used) q.flatten.length
      ∧ q'.length ≤ QUEUE_CAP := by
  intro q
  induction q with
  | nil =>
    intro used _
    exact ⟨[], [], rfl, rfl, by simp, by simp [QUEUE_CAP]⟩
  | cons msg rest ih =>
    intro used hq
    by_cases hu : used < buflen
    · by_cases hm : msg.length ≤ buflen - used
      · obtain ⟨out, q', hgo, hcat, hlen, hcap⟩ :=
          ih (used + msg.length) (by simp at hq ⊢; omega)
        refine ⟨msg ++ out, q', ?_, ?_, ?_, hcap⟩
        · simp only [recvGo, if_pos hu, if_pos hm, hgo]
        · simp only [List.flatten_cons, List.append_assoc, hcat]
        · simp only [List.length_append, List.flatten_cons, hlen]
          omega
      · have hrest : rest.length < QUEUE_CAP := by simp at hq; omega
        refine ⟨msg.take (buflen - used), msg.drop (buflen - used) :: rest, ?_, ?_, ?_, ?_⟩
        · simp only [recvGo, if_pos hu, if_neg hm, if_pos True.intro, if_pos hrest]
        · simp only [List.flatten_cons, ← List.append_assoc, List.take_append_drop]
        · simp only [List.length_take, List.flatten_cons, List.length_append]
          omega
        · simp only [List.length_cons]
          omega
    · refine ⟨[], msg :: rest, ?_, rfl, ?_, hq⟩
      · simp only [recvGo, if_neg hu]
      · simp only [List.length_nil]
        omega

theorem recvMany_spec : ∀ (ds : List Nat) (q : List (List Byte)),
    q.length ≤ QUEUE_CAP →
    ∃ out q', recvMany true q ds = some (out, q')
      ∧ out ++ q'.flatten = q.flatten
      ∧ out.length = min ds.sum q.flatten.length
      ∧ q'.length ≤ QUEUE_CAP := by
  intro ds
  induction ds with
  | nil =>
    intro q hq
    exact ⟨[], q, rfl, rfl, by simp, hq⟩
  | cons d ds ih =>
    intro q hq
    obtain ⟨out, q', hgo, hcat, hlen, hcap⟩ := recvGo_spec d q 0 hq
    obtain ⟨out', q'', hgo', hcat', hlen', hcap'⟩ := ih q' hcap
    have hcall : recvCall true q d = some (out, q') := hgo
    refine ⟨out ++ out', q'', ?_, ?_, ?_, hcap'⟩
    · simp only [recvMany, hcall, hgo']
    · rw [List.append_assoc, hcat', hcat]
    · have hq' : q'.flatten.length = q.flatten.length - out.length := by
        have := congrArg List.length hcat
        simp only [List.length_append] at this
        omega
      simp only [List.length_append, hlen', hq', hlen, List.sum_cons]
      omega

/-- C2.  Port FIFO ordering through `recv`: starting from any queue the
bounded `Deque` admits (at most 16 chunks) and any sequence of destination
sizes, repeated `recv` calls succeed (heap allocations succeeding), the
concatenation of the returned byte strings followed by what remains queued
is exactly the concatenation of the original chunks — no byte lost,
duplicated or reordered, oversize chunks being split with the leftover
suffix pushed back to the front — and the number of bytes returned is
exactly the smaller of the total destination space and the total queued
bytes, so destinations large enough reconstruct the stream completely. -/
theorem recv_fifo_reconstruction (q : List (List Byte)) (ds : List Nat)
    (hq : q.length ≤ QUEUE_CAP) :
    ∃ out q', recvMany true q ds = some (out, q')
      ∧ out ++ q'.flatten = q.flatten
      ∧ out.length = min ds.sum q.flatten.length :=
  match recvMany_spec ds q hq with
  | ⟨out, q', h1, h2, h3, _⟩ => ⟨out, q', h1, h2, h3⟩

/-- Witness for `recv_fifo_reconstruction`: chunks `[1,2,3]` and `[4]`
read through destinations of sizes 2, 1 and 3. -/
theorem recv_fifo_reconstruction_witness :
    ∃ out q', recvMany true [[1, 2, 3], [4]] [2, 1, 3] = some (out, q')
      ∧ out ++ q'.flatten = [1, 2, 3, 4]
      ∧ out.length = min ([2, 1, 3] : List Nat).sum ([1, 2, 3, 4] : List Byte).length :=
  recv_fifo_reconstruction [[1, 2, 3], [4]] [2, 1, 3] (by decide)

/-- C10.  On a registered port, `recv` never returns `Err`: its only error
result is the unregistered-port lookup failure, and in the chunk-splitting
path a heap-lock or allocation failure aborts (`defmt::unwrap!` panics,
the `none` outcome) instead of surfacing as an error. -/
theorem recv_registered_never_err (ps : Registry) (k n : Nat) (b : Bool)
    (q : List (List Byte)) (h : lookupPort ps k = some q) :
    (∃ r, recv b ps k n = some (.ok r)) ∨ recv b ps k n = none := by
  unfold recv
  rw [h]
  cases hc : recvCall b q n with
  | none =>
    right
    simp [hc]
  | some p =>
    obtain ⟨out, q'⟩ := p
    left
    exact ⟨(out, updatePort ps k q'), by simp [hc]⟩

/-- Witness for `recv_registered_never_err` at a registered port with a
queued chunk. -/
theorem recv_registered_never_err_witness :
    (∃ r, recv true [(0, [[7]])] 0 1 = some (.ok r))
    ∨ recv true [(0, [[7]])] 0 1 = none :=
  recv_registered_never_err [(0, [[7]])] 0 1 true [[7]] (by decide)

/-! ## Egress path (usb_serial.rs, `send`) -/

/-- Outcome of one `bbqueue` write-grant request on the outbound ring,
together with the outcome of the external `sportty` encode into that
grant: `ok size encOk` is `Ok(wgr)` with `wgr.len() = size` (and `encOk`
false when `Message::encode_to` fails, which the source turns into
`defmt::panic!`), `insufficient` is `Err(InsufficientSize)`, and `fault`
is any other grant error, which the source also turns into a panic. -/
inductive GrantRes where
  | ok : Nat → Bool → GrantRes
  | insufficient : GrantRes
  | fault : GrantRes
deriving Repr, DecidableEq

/-- Embeds the `while !remaining.is_empty()` loop of `send`.  `orc` lists
the ring's successive grant responses (an exhausted oracle behaves as a
ring with no space, `InsufficientSize`); `committed` accumulates the
payload bytes encoded and committed so far.  A grant of at most
`2 + 1 + 1` bytes cannot hold port, one payload byte and sentinel, so the
unconsumed suffix is returned; otherwise `to_use = min (wgr.len() - 4)
remaining.len()` payload bytes are encoded, committed, and the window
advances. -/
def sendGo : List GrantRes → List Byte → List Byte →
    Option (Except (List Byte) Unit × List Byte)
  | _, [], committed => some (.ok (), committed)
  | [], remaining, committed => some (.error remaining, committed)
  | g :: orc, remaining, committed =>
    match g with
    | .insufficient => some (.error remaining, committed)
    | .fault => none
    | .ok size encOk =>
      if size ≤ 2 + 1 + 1 then some (.error remaining, committed)
      else if encOk then
        sendGo orc (remaining.drop (min (size - 4) remaining.length))
          (committed ++ remaining.take (min (size - 4) remaining.length))
      else none

/-- Embeds `send`: unregistered ports fail immediately with the whole
input (and nothing committed); otherwise the grant loop runs. -/
def send (ps : Registry) (k : Nat) (buf : List Byte) (orc : List GrantRes) :
    Option (Except (List Byte) Unit × List Byte) :=
  if (lookupPort ps k).isSome then sendGo orc buf []
  else some (.error buf, [])

theorem sendGo_spec : ∀ (orc : List GrantRes) (remaining committed : List Byte)
    (r : Except (List Byte) Unit) (c : List Byte),
    sendGo orc remaining committed = some (r, c) →
    (r = .ok () → c = committed ++ remaining)
    ∧ (∀ s, r = .error s → c ++ s = committed ++ remaining) := by
  intro orc
  induction orc with
  | nil =>
    intro remaining committed r c h
    cases remaining with
    | nil =>
      simp only [sendGo, Option.some.injEq, Prod.mk.injEq] at h
      obtain ⟨rfl, rfl⟩ := h
      exact ⟨(fun _ => by simp), (fun s hs => by cases hs)⟩
    | cons x xs =>
      simp only [sendGo, Option.some.injEq, Prod.mk.injEq] at h
      obtain ⟨rfl, rfl⟩ := h
      exact ⟨(fun hk => by cases hk), (fun s hs => by cases hs; rfl)⟩
  | cons g orc ih =>
    intro remaining committed r c h
    cases remaining with
    | nil =>
      simp only [sendGo, Option.some.injEq, Prod.mk.injEq] at h
      obtain ⟨rfl, rfl⟩ := h
      exact ⟨(fun _ => by simp), (fun s hs => by cases hs)⟩
    | cons x xs =>
      cases g with
      | insufficient =>
        simp only [sendGo, Option.some.injEq, Prod.mk.injEq] at h
        obtain ⟨rfl, rfl⟩ := h
        exact ⟨(fun hk => by cases hk), (fun s hs => by cases hs; rfl)⟩
      | fault => simp [sendGo] at h
      | ok size encOk =>
        by_cases hsz : size ≤ 2 + 1 + 1
        · simp only [sendGo, if_pos hsz, Option.some.injEq, Prod.mk.injEq] at h
          obtain ⟨rfl, rfl⟩ := h
          exact ⟨(fun hk => by cases hk), (fun s hs => by cases hs; rfl)⟩
        · cases hE : encOk with
          | false => simp [sendGo, if_neg hsz, hE] at h
          | true =>
            simp only [sendGo, if_neg hsz, hE, if_pos True.intro] at h
            obtain ⟨hok, herr⟩ := ih _ _ r c h
            refine ⟨?_, ?_⟩
            · intro hk
              rw [hok hk, List.append_assoc, List.take_append_drop]
            · intro s hs
              rw [herr s hs, List.append_assoc, List.take_append_drop]

/-- C3.  Send backpressure without loss or duplication: whenever `send`
returns (rather than panicking on a grant fault or encode failure), an
`Ok` means exactly the input's payload bytes were encoded and committed to
the outbound ring, and an `Err` carries a suffix of the input such that
committed bytes followed by that suffix reproduce the input exactly — no
byte committed twice, none dropped, across any pattern of ring grants
(wraparound, shortfall, exhaustion). -/
theorem send_backpressure_no_loss (ps : Registry) (k : Nat) (buf : List Byte)
    (orc : List GrantRes) (r : Except (List Byte) Unit) (c : List Byte)
    (h : send ps k buf orc = some (r, c)) :
    (r = .ok () → c = buf) ∧ ∀ s, r = .error s → c ++ s = buf := by
  unfold send at h
  by_cases hp : (lookupPort ps k).isSome
  · rw [if_pos hp] at h
    obtain ⟨hok, herr⟩ := sendGo_spec orc buf [] r c h
    exact ⟨(fun hk => by rw [hok hk]; rfl), (fun s hs => by rw [herr s hs]; rfl)⟩
  · rw [if_neg hp] at h
    simp only [Option.some.injEq, Prod.mk.injEq] at h
    obtain ⟨rfl, rfl⟩ := h
    exact ⟨(fun hk => by cases hk), (fun s hs => by cases hs; rfl)⟩

/-- Witness for `send_backpressure_no_loss`: port 0 registered, input
`[1,2,3]`, a single 6-byte grant — two payload bytes fit, the suffix
`[3]` comes back, and committed plus suffix is the input. -/
theorem send_backpressure_no_loss_witness :
    send [(0, [])] 0 [1, 2, 3] [.ok 6 true] = some (.error [3], [1, 2])
    ∧ [1, 2] ++ [3] = [1, 2, 3] :=
  ⟨by decide,
    (send_backpressure_no_loss [(0, [])] 0 [1, 2, 3] [.ok 6 true] (.error [3]) [1, 2]
      (by decide)).2 [3] rfl⟩

/-- C7.  Port lifecycle failures: registering an id already present fails
(in particular a second `register_port 5` after a successful one), as does
registering into a full 8-entry registry; `release_port 0` always fails;
releasing an unknown id fails; and `recv`/`send` on a never-registered id
such as 9 fail, `send` handing the entire input back with nothing
committed. -/
theorem port_lifecycle_failures :
    (∀ (p : Registry) (k : Nat), (lookupPort p k).isSome → register_port p k = .error ())
    ∧ (∀ (p : Registry) (k : Nat), ¬ (lookupPort p k).isSome → REG_CAP ≤ p.length →
        register_port p k = .error ())
    ∧ (∀ p p' : Registry, register_port p 5 = .ok p' → register_port p' 5 = .error ())
    ∧ (∀ p : Registry, release_port p 0 = .error ())
    ∧ (∀ (p : Registry) (k : Nat), lookupPort p k = none → release_port p k = .error ())
    ∧ (∀ (p : Registry) (n : Nat) (b : Bool), lookupPort p 9 = none →
        recv b p 9 n = some (.error ()))
    ∧ (∀ (p : Registry) (buf : List Byte) (o : List GrantRes), lookupPort p 9 = none →
        send p 9 buf o = some (.error buf, [])) := by
  refine ⟨?_, ?_, ?_, ?_, ?_, ?_, ?_⟩
  · intro p k h
    simp [register_port, h]
  · intro p k h hfull
    simp [register_port, h]
    omega
  · intro p p' h
    have hin : (lookupPort p' 5).isSome := by
      by_cases h1 : (lookupPort p 5).isSome
      · rw [register_port, if_pos h1] at h
        simp at h
      · by_cases h2 : p.length < REG_CAP
        · rw [register_port, if_neg h1, if_pos h2] at h
          injection h with h
          subst h
          have hnone : p.find? (fun e => e.1 == 5) = none := by
            cases hf : p.find? (fun e => e.1 == 5) with
            | none => rfl
            | some e =>
              exfalso
              apply h1
              unfold lookupPort
              rw [hf]
              rfl
          unfold lookupPort
          rw [List.find?_append, hnone]
          rfl
        · rw [register_port, if_neg h1, if_neg h2] at h
          simp at h
    simp [register_port, hin]
  · intro p
    simp [release_port]
  · intro p k h
    simp [release_port, h]
  · intro p n b h
    simp [recv, h]
  · intro p buf o h
    simp [send, h]

/-- Witness for `port_lifecycle_failures` on a concrete registry: port 5
registered once into the port-0-only registry, then rejected. -/
theorem port_lifecycle_failures_witness :
    register_port [(0, []), (5, [])] 5 = .error ()
    ∧ release_port [(0, [])] 0 = .error ()
    ∧ recv true [(0, [])] 9 4 = some (.error ())
    ∧ send [(0, [])] 9 [1] [] = some (.error [1], []) :=
  ⟨port_lifecycle_failures.1 [(0, []), (5, [])] 5 (by decide),
    port_lifecycle_failures.2.2.2.1 [(0, [])],
    port_lifecycle_failures.2.2.2.2.2.1 [(0, [])] 4 true (by decide),
    port_lifecycle_failures.2.2.2.2.2.2 [(0, [])] [1] [] (by decide)⟩

/-! ## Ingestion loop (usb_serial.rs, `process`)

`process` drains read reservations (grants) from the inbound ring and runs
the accumulator over each grant's window.  The model takes the pending
grants as a list of byte windows; releasing a grant for its full length is
recorded in the `released` list of the result.  The external pieces enter
as parameters: `dec` is `sportty::Message::decode_in_place` (an external
codec, yielding a port tag and payload or failing), and `allocs` is the
oracle of heap lock-plus-allocation outcomes, one entry consumed per
decoded frame whose destination port is registered.  The port-0 loopback
`self.send(0, ..)` touches only the outbound ring, which this state does
not include, and its `Result` is discarded by the source (`.ok()`), so it
does not appear in the state.  Fuel bounds the inner loop, whose

source-faithful `Ok(None)` arm leaves `window` unchanged. -/

structure ProcState (N : Nat) where
  acc : Accumulator N
  ports : Registry
deriving Repr, DecidableEq

inductive RunOut (α : Type) where
  | fuelOut : RunOut α
  | panicked : RunOut α
  | done : α → RunOut α
deriving Repr, DecidableEq

/-- Embeds the `while !window.is_empty()` loop over one grant.  The five
outcomes of `feed` are handled as the source does: `Ok(Some(msg))` decodes
and dispatches the frame then continues with the remainder, `Ok(None)`
continues with the window unchanged (the source does not advance it),
`NoRoomNoRem` ends the window (the grant is then released), `NoRoomWithRem`
continues with the post-sentinel remainder, and a `feed` panic propagates. -/
def innerLoop (dec : List Byte → Option (Nat × List Byte)) {N : Nat} :
    Nat → ProcState N → List Byte → List Bool → RunOut (ProcState N × List Bool)
  | 0, _, _, _ => .fuelOut
  | fuel + 1, st, window, allocs =>
    if window.length = 0 then .done (st, allocs)
    else
      match st.acc.feed window with
      | none => .panicked
      | some (acc', .ok none) => innerLoop dec fuel ⟨acc', st.ports⟩ window allocs
      | some (acc', .ok (some s)) =>
        match dec s.msg with
        | none => innerLoop dec fuel ⟨acc', st.ports⟩ s.remainder allocs
        | some (port, data) =>
          let ports' :=
            match lookupPort st.ports port with
            | none => st.ports
            | some q =>
              if allocs.headD true ∧ q.length < QUEUE_CAP then
                updatePort st.ports port (q ++ [data])
              else st.ports
          let allocs' :=
            match lookupPort st.ports port with
            | none => allocs
            | some _ => allocs.tail
          innerLoop dec fuel ⟨acc', ports'⟩ s.remainder allocs'
      | some (acc', .error .NoRoomNoRem) => .done (⟨acc', st.ports⟩, allocs)
      | some (acc', .error (.NoRoomWithRem rem)) =>
        innerLoop dec fuel ⟨acc', st.ports⟩ rem allocs

/-- Result of `process` over a list of grants: the lengths released, in
order, plus how the run ended. -/
inductive ProcOut (N : Nat) where
  | fuelOut : List Nat → ProcOut N
  | panicked : List Nat → ProcOut N
  | done : ProcState N → List Nat → ProcOut N
deriving Repr, DecidableEq

/-- Embeds the `'outer: while let Ok(rgr) = self.inc.read()` loop: each
grant's window is run through the inner loop, and on every non-panicking
exit the grant is released for its full length (`rgr.release(rec_len)`,
both at the `NoRoomNoRem` arm and at the loop's end).  A panic inside the
inner loop aborts `process` before the release. -/
def process (dec : List Byte → Option (Nat × List Byte)) {N : Nat} (fuel : Nat) :
    ProcState N → List (List Byte) → List Bool → ProcOut N
  | st, [], _ => .done st []
  | st, g :: gs, allocs =>
    match innerLoop dec fuel st g allocs with
    | .fuelOut => .fuelOut []
    | .panicked => .panicked []
    | .done (st', allocs') =>
      match process dec fuel st' gs allocs' with
      | .fuelOut rel => .fuelOut (g.length :: rel)
      | .panicked rel => .panicked (g.length :: rel)
      | .done st'' rel => .done st'' (g.length :: rel)

/-- C6.  The claim says every read reservation is released for its full
length regardless of decode outcome.  The code violates it through the
same off-by-one as the completed-frame arm of `feed`: a grant holding a
frame whose content fills the scratch exactly (N content bytes, here all
ones, then the sentinel) makes the first `feed` panic, `process` aborts,
and the reservation is never released (no diagnostic, no error — the
process dies).  On every other path the claim matches the code: the model
releases each grant in full on all non-panicking exits, and allocation
failure, a full queue, or an unknown port only drop the frame. -/
theorem process_grant_panic_unreleased (dec : List Byte → Option (Nat × List Byte))
    (N fuel : Nat) (ports : Registry) (allocs : List Bool) (hfuel : 1 ≤ fuel) :
    process dec fuel ⟨Accumulator.new N, ports⟩ [List.replicate N 1 ++ [0]] allocs
      = .panicked [] := by
  obtain ⟨m, rfl⟩ : ∃ m, fuel = m + 1 := ⟨fuel - 1, by omega⟩
  have hfz : findZero (List.replicate N 1 ++ [0]) = some N := by
    have h := findZero_before_sentinel (List.replicate N 1) []
      (fun b hb => by rw [List.eq_of_mem_replicate hb]; decide)
    rw [List.length_replicate] at h
    exact h
  have hfeed : (Accumulator.new N).feed (List.replicate N 1 ++ [0]) = none := by
    simp only [Accumulator.feed, hfz]
    rw [if_pos (by simp [Accumulator.new] : (Accumulator.new N).idx + N ≤ N),
      if_neg (by simp [Accumulator.new] : ¬ (Accumulator.new N).idx + (N + 1) ≤ N)]
  simp only [process, innerLoop, List.length_append, List.length_replicate,
    List.length_cons, List.length_nil]
  rw [if_neg (by omega : ¬ N + 1 = 0)]
  simp only [hfeed]

/-- Witness for `process_grant_panic_unreleased` at N = 4 with one unit of
fuel: the very first `feed` of the grant `[1,1,1,1,0]` panics. -/
theorem process_grant_panic_unreleased_witness :
    process (fun _ => none) 1 ⟨Accumulator.new 4, [(0, [])]⟩
      [List.replicate 4 1 ++ [0]] [] = .panicked [] :=
  process_grant_panic_unreleased (fun _ => none) 4 1 [(0, [])] [] (by decide)

/-! ## Syscall channel (syscall/mod.rs, `raw_syscall` and `try_syscall`)

The four process-wide fields (`SYSCALL_IN_PTR`, `SYSCALL_IN_LEN`,
`SYSCALL_OUT_PTR`, `SYSCALL_OUT_LEN`) form the `Chan` state; pointers are
word values with 0 as null.  The privileged handler behind `svc 0` is an
external collaborator: it is a parameter `trap` mapping the channel state
it observes to the state it leaves plus the bytes it wrote into the
caller's output buffer.  `postcard` is likewise external: serialisation of
the request is a parameter that either fails or yields the bytes placed in
the 128-byte `inp_buf`, and `dec` deserialises the response bytes. -/

structure Chan where
  inPtr : Nat
  inLen : Nat
  outPtr : Nat
  outLen : Nat
deriving Repr, DecidableEq

def Chan.idle : Chan := ⟨0, 0, 0, 0⟩

/-- Embeds `raw_syscall`.  The compare-and-swap on the incoming pointer
fails (busy, `Err(())`, channel untouched) unless the channel is idle;
otherwise the remaining three fields are published, the trap runs, and
afterwards the caller takes-and-zeroes the outgoing length and clears the
other three fields before inspecting anything.  A zero outgoing length is
the failure result; an outgoing length above the published capacity makes
the slice `&mut output[..new_out_len]` panic (`none`). -/
def raw_syscall (trap : Chan → Chan × List Byte) (c : Chan)
    (inPtr inLen outPtr outCap : Nat) : Option (Chan × Except Unit (List Byte)) :=
  if ¬ c.inPtr = 0 then some (c, .error ())
  else
    let tr := trap ⟨inPtr, inLen, outPtr, outCap⟩
    if tr.1.outLen = 0 then some (Chan.idle, .error ())
    else if tr.1.outLen ≤ outCap then some (Chan.idle, .ok (tr.2.take tr.1.outLen))
    else none

/-- Embeds `try_syscall`: serialise into the fixed 128-byte local buffer
(failure is local, the channel is not touched), call `raw_syscall` with
the local buffers (modelled addresses 1, capacity 128), and deserialise
the response, every failure collapsing to the unit error. -/
def try_syscall {α : Type} (enc : Option (List Byte)) (dec : List Byte → Option α)
    (trap : Chan → Chan × List Byte) (c : Chan) : Option (Chan × Except Unit α) :=
  match enc with
  | none => some (c, .error ())
  | some inBytes =>
    match raw_syscall trap c 1 inBytes.length 1 128 with
    | none => none
    | some (c', .error _) => some (c', .error ())
    | some (c', .ok outBytes) =>
      match dec outBytes with
      | none => some (c', .error ())
      | some v => some (c', .ok v)

/-- C8 counterexample.  The claim ends with decode failure being reported
as a distinct malformed-response error.  `try_syscall`'s error type is
`()`: a handler that reports failure by writing length zero and a handler
whose response bytes fail to decode produce the very same result, so the
malformed case is not distinct from the failure case. -/
theorem try_syscall_error_not_distinct :
    try_syscall (some [1]) (fun _ => (none : Option Unit))
        (fun _ => (Chan.idle, [])) Chan.idle
      = try_syscall (some [1]) (fun _ => (none : Option Unit))
        (fun c => (⟨c.inPtr, c.inLen, c.outPtr, 1⟩, [9])) Chan.idle
    ∧ try_syscall (some [1]) (fun _ => (none : Option Unit))
        (fun _ => (Chan.idle, [])) Chan.idle
      = some (Chan.idle, .error ()) := by
  exact ⟨rfl, rfl⟩

/-- C8 as amended.  After the trap returns, the caller atomically takes
and zeroes the outgoing length and clears the remaining shared fields, so
on every call that passed the claim step (idle channel) and returned, the
four shared fields are idle regardless of outcome; a zero outgoing length
is the failure result; and decode failure is reported as an error — but
the same opaque unit error as the failure result, not a distinct
malformed-response variant, since `try_syscall`'s error type carries no
information. -/
theorem syscall_channel_idle_after_call :
    (∀ (trap : Chan → Chan × List Byte) (c : Chan) (ip il op cap : Nat)
      (res : Chan × Except Unit (List Byte)),
      c.inPtr = 0 → raw_syscall trap c ip il op cap = some res → res.1 = Chan.idle)
    ∧ (∀ (trap : Chan → Chan × List Byte) (c : Chan) (ip il op cap : Nat),
      c.inPtr = 0 → (trap ⟨ip, il, op, cap⟩).1.outLen = 0 →
      raw_syscall trap c ip il op cap = some (Chan.idle, .error ()))
    ∧ (∀ (α : Type) (dec : List Byte → Option α) (trap : Chan → Chan × List Byte)
      (c : Chan) (inB outB : List Byte),
      raw_syscall trap c 1 inB.length 1 128 = some (Chan.idle, .ok outB) →
      dec outB = none →
      try_syscall (some inB) dec trap c = some (Chan.idle, .error ())) := by
  refine ⟨?_, ?_, ?_⟩
  · intro trap c ip il op cap res hc hres
    unfold raw_syscall at hres
    rw [if_neg (by simp [hc])] at hres
    by_cases h0 : (trap ⟨ip, il, op, cap⟩).1.outLen = 0
    · simp only [h0, if_pos rfl] at hres
      obtain rfl : (Chan.idle, (.error () : Except Unit (List Byte))) = res :=
        Option.some.inj hres
      rfl
    · rw [if_neg h0] at hres
      by_cases hcap : (trap ⟨ip, il, op, cap⟩).1.outLen ≤ cap
      · rw [if_pos hcap] at hres
        obtain rfl := Option.some.inj hres
        rfl
      · rw [if_neg hcap] at hres
        cases hres
  · intro trap c ip il op cap hc h0
    unfold raw_syscall
    rw [if_neg (by simp [hc])]
    simp [h0]
  · intro α dec trap c inB outB hraw hdec
    simp only [try_syscall, hraw, hdec]

/-- Witness for `syscall_channel_idle_after_call`: an idle channel, a
handler that clears everything (zero outgoing length), and the failure
result with the channel idle again. -/
theorem syscall_channel_idle_after_call_witness :
    raw_syscall (fun _ => (Chan.idle, [])) Chan.idle 1 1 1 128
      = some (Chan.idle, .error ()) :=
  syscall_channel_idle_after_call.2.1 (fun _ => (Chan.idle, [])) Chan.idle 1 1 1 128 rfl rfl

/-- C9.  A request whose serialisation fails (does not fit the fixed
128-byte local buffer the wire codec bounds both directions by) makes
`try_syscall` fail locally: the result is the unit error, the channel
state is returned untouched, and no trap occurs — the outcome does not
depend on the handler at all. -/
theorem try_syscall_encode_failure_local :
    ∀ (α : Type) (dec : List Byte → Option α) (t t' : Chan → Chan × List Byte) (c : Chan),
      try_syscall none dec t c = some (c, .error ())
      ∧ try_syscall none dec t c = try_syscall none dec t' c := by
  intro α dec t t' c
  exact ⟨rfl, rfl⟩

/-- C4.  With capacity N = 4, `feed(b"AB")` on a fresh accumulator returns
`Ok(None)` as the spec scenario says, but the follow-up `feed(b"CD\x00")`
does not return the completed frame: the sentinel is found at offset
`n = 2` with cursor 2, the guard `cursor + n ≤ N` (4 ≤ 4) admits the arm,
and the copy of `n + 1 = 3` bytes at offset 2 into the 4-byte scratch
panics with a slice-index-out-of-range.  The claimed behaviour (frame
`b"ABCD"`, empty remainder) is the evident intent of the guard; the copy
is off by one whenever `cursor + n = N`. -/
theorem feed_completed_frame_scenario_panics :
    (Accumulator.new 4).feed [65, 66]
      = some (⟨[65, 66, 0, 0], 2⟩, .ok none)
    ∧ (Accumulator.feed (N := 4) ⟨[65, 66, 0, 0], 2⟩ [67, 68, 0]) = none := by
  constructor
  · decide
  · decide

/-- C5 counterexample.  With capacity N = 4 the claim says a fresh
`feed(b"ABCDE\x00")` returns `Err(NoRoomNoRem)` and, in general, that
`NoRoomNoRem` is signalled whenever no bytes follow the sentinel.  In the
source the arm `Some(n) if n < buf.len()` always fires when a sentinel was
found (a found position is always in range), so the overflow result is
`NoRoomWithRem` carrying the empty remainder, and the `Some(_) =>
NoRoomNoRem` arm is dead code. -/
theorem feed_overflow_norem_counterexample :
    (Accumulator.new 4).feed [65, 66, 67, 68, 69, 0]
      = some (⟨[0, 0, 0, 0], 0⟩, .error (.NoRoomWithRem []))
    ∧ (Accumulator.new 4).feed [65, 66, 67, 68, 69, 0]
      ≠ some (⟨[0, 0, 0, 0], 0⟩, .error .NoRoomNoRem) := by
  constructor
  · decide
  · decide

/-- C5 as amended.  When `feed` finds a sentinel at offset `n` and the
frame would overflow (`N < cursor + n`), it resets the cursor to 0, leaves
the scratch contents untouched, and signals
`Overflow::WithRemainder(bytes after the sentinel)` — the remainder being
empty when the sentinel is the last byte of the window; `NoRoomNoRem`
arises only from windows that contain no sentinel.  The concrete N = 4
scenario: `feed(b"ABCDE\x00")` yields `NoRoomWithRem(&[])`, after which
`feed(b"X\x00")` behaves exactly as on a freshly constructed accumulator,
returning the frame with content `b"X"` (snapshot `[88, 0]`) and empty
remainder. -/
theorem feed_overflow_with_remainder :
    (∀ (N : Nat) (a : Accumulator N) (buf : List Byte) (n : Nat),
      findZero buf = some n → N < a.idx + n →
        a.feed buf = some (⟨a.buf, 0⟩, .error (.NoRoomWithRem (buf.drop (n + 1)))))
    ∧ ((Accumulator.new 4).feed [65, 66, 67, 68, 69, 0]
        = some (⟨[0, 0, 0, 0], 0⟩, .error (.NoRoomWithRem []))
      ∧ Accumulator.feed (N := 4) ⟨[0, 0, 0, 0], 0⟩ [88, 0]
          = (Accumulator.new 4).feed [88, 0]
      ∧ (Accumulator.new 4).feed [88, 0]
          = some (⟨[88, 0, 0, 0], 0⟩, .ok (some ⟨[], [88, 0]⟩))) := by
  refine ⟨?_, by decide, by decide, by decide⟩
  intro N a buf n hfz hlt
  have hn := findZero_lt hfz
  simp only [Accumulator.feed, hfz]
  have h1 : ¬ a.idx + n ≤ N := by omega
  have h2 : n + 1 ≤ buf.length := hn
  simp [h1, h2]

/-- Witness for the universally quantified part of
`feed_overflow_with_remainder` at the concrete N = 4 overflow input. -/
theorem feed_overflow_with_remainder_witness :
    (Accumulator.new 4).feed [65, 66, 67, 68, 69, 0]
      = some (⟨[0, 0, 0, 0], 0⟩, .error (.NoRoomWithRem [])) :=
  feed_overflow_with_remainder.1 4 (Accumulator.new 4) [65, 66, 67, 68, 69, 0] 5
    (by decide) (by decide)

end Pellegrino
